import Mathlib

/-!
Verification development for the Wiki Quiz application (FastAPI backend +
React frontend).  Frontend logic (URL submit check, quiz scoring, quiz-taking
state, URL truncation for the history table) is embedded directly from the
JavaScript sources.  Backend pipeline components (UrlNormalizer,
ResponseParser, QuizValidator, QuizRepository, generate workflow) are not part
of the frontend sources; they are modelled from the design specification and
each such definition is marked accordingly in its doc comment.

Strings manipulated character-by-character (URLs, raw model output) are
embedded as `List Char`; strings only compared for equality (titles, options,
answers) are embedded as `String`.
-/

/-! ## Question data model -/

/-- Question record as validated by the backend and consumed by the frontend:
five required fields (`question`, `options`, `answer`, `difficulty`,
`explanation`). -/
structure Question where
  question : String
  options : List String
  answer : String
  difficulty : String
  explanation : String
deriving DecidableEq

/-! ## C10 : truncateUrl (QuizHistory.jsx) -/

/-- Embedding of `truncateUrl` from QuizHistory.jsx:
`if (url.length <= maxLength) return url; return url.substring(0, maxLength) + '...'`.
The JavaScript source gives `maxLength` a default value of 50 and the history
table always calls it with that default; callers below pass 50 explicitly. -/
def truncateUrl (url : List Char) (maxLength : Nat) : List Char :=
  if url.length ≤ maxLength then url
  else url.take maxLength ++ ['.', '.', '.']

/-- The pre-truncation prefix of the displayed string agrees with the
original URL. -/
theorem truncateUrl_take_eq (url : List Char) :
    (truncateUrl url 50).take 50 = url.take 50 := by
  unfold truncateUrl
  by_cases h : url.length ≤ 50
  · rw [if_pos h]
  · rw [if_neg h]
    rw [List.take_append_eq_append_take]
    have hlen : (url.take 50).length = 50 := by
      rw [List.length_take]
      omega
    rw [hlen]
    simp

/-- C10: a URL of length at most 50 is displayed unchanged; a longer URL is
displayed as exactly its first 50 characters followed by three dots; the
displayed string never exceeds 53 characters and preserves the URL's
50-character prefix. -/
theorem truncateUrl_spec (url : List Char) :
    (url.length ≤ 50 → truncateUrl url 50 = url) ∧
    (50 < url.length → truncateUrl url 50 = url.take 50 ++ ['.', '.', '.']) ∧
    (truncateUrl url 50).length ≤ 53 ∧
    (truncateUrl url 50).take 50 = url.take 50 := by
  refine ⟨?_, ?_, ?_, truncateUrl_take_eq url⟩
  · intro h
    unfold truncateUrl
    rw [if_pos h]
  · intro h
    unfold truncateUrl
    rw [if_neg (by omega)]
  · unfold truncateUrl
    by_cases h : url.length ≤ 50
    · rw [if_pos h]
      omega
    · rw [if_neg h]
      have : (url.take 50).length ≤ 50 := by
        rw [List.length_take]
        omega
      simp only [List.length_append]
      simp only [List.length_cons, List.length_nil]
      omega

/-- Witness for C10 at a concrete 55-character URL. -/
theorem truncateUrl_spec_witness :
    truncateUrl ("https://en.wikipedia.org/wiki/History_of_mathematicsXYZ".toList) 50 =
      ("https://en.wikipedia.org/wiki/History_of_mathematics".toList).take 50 ++
        ['.', '.', '.'] := by
  have h := (truncateUrl_spec ("https://en.wikipedia.org/wiki/History_of_mathematicsXYZ".toList)).2.1
    (by decide)
  rw [h]
  decide

/-! ## C8 : calculateScore (QuizDisplay.jsx) -/

/-- Shape of the `quiz` prop of QuizDisplay: the object may carry a `quiz`
field holding the question array, and that field may be absent. -/
structure DisplayQuiz where
  quizQuestions : Option (List Question)

/-- Loop body of `calculateScore`: the `forEach((q, index) => ...)` walk that
counts questions whose selected answer is strictly equal to the question's
`answer` field.  An unanswered index (`undefined` in JavaScript) is modelled
as `none` and never compares equal to an answer string. -/
def countCorrect (sel : Nat → Option String) : List Question → Nat → Nat
  | [], _ => 0
  | q :: rest, i => (if sel i = some q.answer then 1 else 0) + countCorrect sel rest (i + 1)

/-- Embedding of `calculateScore` from QuizDisplay.jsx:
`if (!quiz?.quiz) return { correct: 0, total: 0 }` followed by the forEach
count; returns `(correct, total)`. -/
def calculateScore (qz : Option DisplayQuiz) (sel : Nat → Option String) : Nat × Nat :=
  match qz with
  | none => (0, 0)
  | some d =>
    match d.quizQuestions with
    | none => (0, 0)
    | some qs => (countCorrect sel qs 0, qs.length)

/-- Specification-side count: the number of question indices whose selected
answer is strictly equal to that question's answer field. -/
def matchedCount (sel : Nat → Option String) (qs : List Question) : Nat :=
  ((List.range qs.length).filter fun i =>
    decide (sel i = (qs.get? i).map Question.answer)).length

theorem countCorrect_le_length (sel : Nat → Option String) :
    ∀ (qs : List Question) (i : Nat), countCorrect sel qs i ≤ qs.length := by
  intro qs
  induction qs with
  | nil => intro i; simp [countCorrect]
  | cons q rest ih =>
    intro i
    simp only [countCorrect, List.length_cons]
    have := ih (i + 1)
    by_cases h : sel i = some q.answer <;> simp [h] <;> omega

theorem length_filter_map_succ (p : Nat → Bool) (l : List Nat) :
    ((l.map Nat.succ).filter p).length = (l.filter fun i => p (i + 1)).length := by
  induction l with
  | nil => rfl
  | cons a t ih =>
    simp only [List.map_cons, List.filter_cons]
    by_cases h : p (a + 1) = true
    · simp only [Nat.succ_eq_add_one, h, if_pos]
      simp only [List.length_cons, ih]
    · have h2 : p (Nat.succ a) = false := by
        simpa using Bool.eq_false_iff.mpr (by simpa using h)
      simp only [Nat.succ_eq_add_one] at h2
      simp only [Nat.succ_eq_add_one, h2]
      simpa using ih

theorem countCorrect_eq_matched_aux (sel : Nat → Option String) :
    ∀ (qs : List Question) (s : Nat),
      countCorrect sel qs s =
        ((List.range qs.length).filter fun i =>
          decide (sel (s + i) = (qs.get? i).map Question.answer)).length := by
  intro qs
  induction qs with
  | nil => intro s; rfl
  | cons q rest ih =>
    intro s
    simp only [countCorrect, List.length_cons, List.range_succ_eq_map, List.filter_cons]
    have hnext :
        (List.filter (fun i => decide (sel (s + i) =
            Option.map Question.answer ((q :: rest).get? i)))
            (List.map Nat.succ (List.range rest.length))).length
          = countCorrect sel rest (s + 1) := by
      rw [length_filter_map_succ]
      have hcongr :
          (List.filter (fun i => decide (sel (s + (i + 1)) =
              Option.map Question.answer ((q :: rest).get? (i + 1)))) (List.range rest.length)) =
          (List.filter (fun i => decide (sel ((s + 1) + i) =
              Option.map Question.answer (rest.get? i))) (List.range rest.length)) := by
        apply List.filter_congr
        intro i _
        have harith : s + (i + 1) = (s + 1) + i := by omega
        rw [harith]
        rfl
      rw [hcongr, ← ih (s + 1)]
    have hzeroGet : ((q :: rest).get? 0) = some q := rfl
    simp only [Nat.add_zero, hzeroGet, Option.map_some']
    by_cases h : sel s = some q.answer
    · rw [if_pos h, if_pos (by simpa using h)]
      simp only [List.length_cons, hnext]
      omega
    · rw [if_neg h, if_neg (by simpa using h)]
      rw [hnext]
      omega

/-- C8: `calculateScore` returns total = number of questions and correct =
number of indices whose selected answer strictly equals that question's
answer, hence correct ≤ total; an absent quiz object or absent question list
yields (0, 0) rather than a failure. -/
theorem calculateScore_spec (qz : Option DisplayQuiz) (sel : Nat → Option String) :
    (qz = none → calculateScore qz sel = (0, 0)) ∧
    (∀ d, qz = some d → d.quizQuestions = none → calculateScore qz sel = (0, 0)) ∧
    (∀ d qs, qz = some d → d.quizQuestions = some qs →
      calculateScore qz sel = (matchedCount sel qs, qs.length)) ∧
    (calculateScore qz sel).1 ≤ (calculateScore qz sel).2 := by
  refine ⟨?_, ?_, ?_, ?_⟩
  · intro h
    rw [h]
    rfl
  · intro d hd hq
    rw [hd]
    simp [calculateScore, hq]
  · intro d qs hd hq
    rw [hd]
    simp only [calculateScore, hq]
    have := countCorrect_eq_matched_aux sel qs 0
    simp only [Nat.zero_add] at this
    rw [this]
    rfl
  · match qz with
    | none => simp [calculateScore]
    | some d =>
      match hq : d.quizQuestions with
      | none => simp [calculateScore, hq]
      | some qs =>
        simp only [calculateScore, hq]
        exact countCorrect_le_length sel qs 0

/-- Two-question demo quiz used as a concrete score input. -/
def demoQuestionA : Question :=
  { question := "Capital of France?"
    options := ["Paris", "Rome", "Bonn", "Oslo"]
    answer := "Paris"
    difficulty := "easy"
    explanation := "Stated in the lead section." }

/-- Second demo question. -/
def demoQuestionB : Question :=
  { question := "Largest planet?"
    options := ["Mars", "Jupiter", "Venus", "Pluto"]
    answer := "Jupiter"
    difficulty := "medium"
    explanation := "Stated in the planets section." }

/-- Concrete selection map: question 0 answered correctly, question 1 wrongly. -/
def demoSelection : Nat → Option String := fun i =>
  if i = 0 then some ("Paris") else if i = 1 then some ("Mars") else none

/-- Witness for C8: on the two-question demo with one correct selection the
score is (1, 2). -/
theorem calculateScore_spec_witness :
    calculateScore (some ⟨some [demoQuestionA, demoQuestionB]⟩) demoSelection = (1, 2) := by
  have h := (calculateScore_spec (some ⟨some [demoQuestionA, demoQuestionB]⟩) demoSelection).2.2.1
    ⟨some [demoQuestionA, demoQuestionB]⟩ [demoQuestionA, demoQuestionB] rfl rfl
  rw [h]
  decide

/-! ## C9 : quiz-taking state (QuizDisplay.jsx) -/

/-- React state of QuizDisplay relevant to quiz taking: the
`selectedAnswers` object (question index to chosen option) and the
`submitted` flag. -/
structure TakeQuizState where
  selectedAnswers : Nat → Option String
  submitted : Bool

/-- Embedding of `handleOptionSelect` from QuizDisplay.jsx:
`if (submitted) return;` then a spread update storing the option under the
question index. -/
def handleOptionSelect (s : TakeQuizState) (questionIndex : Nat) (opt : String) :
    TakeQuizState :=
  if s.submitted then s
  else { s with selectedAnswers := fun j =>
          if j = questionIndex then some opt else s.selectedAnswers j }

/-- Embedding of `handleSubmitQuiz` from QuizDisplay.jsx. -/
def handleSubmitQuiz (s : TakeQuizState) : TakeQuizState :=
  { s with submitted := true }

/-- Embedding of `handleResetQuiz` from QuizDisplay.jsx: clears the selection
object and the submitted flag. -/
def handleResetQuiz (_s : TakeQuizState) : TakeQuizState :=
  { selectedAnswers := fun _ => none, submitted := false }

/-- Folding a sequence of option-select events over the component state. -/
def applySelectEvents (events : List (Nat × String)) (s : TakeQuizState) : TakeQuizState :=
  events.foldl (fun st e => handleOptionSelect st e.1 e.2) s

/-- C9: while `submitted` is true every option-select event (indeed any
sequence of them) leaves the state unchanged, and `handleResetQuiz` clears
every selection and the submitted flag, after which selections may change
again. -/
theorem submitted_select_frame (s : TakeQuizState) (questionIndex : Nat) (opt : String)
    (events : List (Nat × String)) (h : s.submitted = true) :
    handleOptionSelect s questionIndex opt = s ∧
    applySelectEvents events s = s ∧
    (∀ i, (handleResetQuiz s).selectedAnswers i = none) ∧
    (handleResetQuiz s).submitted = false := by
  have hone : ∀ (t : TakeQuizState), t.submitted = true →
      ∀ (i : Nat) (o : String), handleOptionSelect t i o = t := by
    intro t ht i o
    unfold handleOptionSelect
    rw [ht]
    rfl
  refine ⟨hone s h questionIndex opt, ?_, fun _ => rfl, rfl⟩
  induction events with
  | nil => rfl
  | cons e rest ih =>
    unfold applySelectEvents
    rw [List.foldl_cons, hone s h e.1 e.2]
    exact ih

/-- Witness for C9 at a concrete submitted state. -/
theorem submitted_select_frame_witness :
    handleOptionSelect ⟨fun _ => none, true⟩ 0 ("Paris") = ⟨fun _ => none, true⟩ :=
  (submitted_select_frame ⟨fun _ => none, true⟩ 0 ("Paris") [] rfl).1

/-! ## C6 : QuizRepository delete -/

/-- Persisted quiz record as stored by the repository.  Modelled from the
spec: the backend repository (SQLAlchemy model + delete endpoint) is not
among the provided sources; the data shape follows the spec's Quiz record. -/
structure QuizRecord where
  id : Nat
  url : List Char
  title : String
  questions : List Question
  relatedTopics : List String
deriving DecidableEq

/-- Repository store: the table of persisted quizzes. -/
abbrev RepoStore : Type := List QuizRecord

/-- Modelled from the spec: `QuizRepository.delete(id) -> void (idempotent —
no error if absent)`; the backend repository implementation is not among the
provided sources.  Deletion removes every row with the given id and is total:
it returns a store for every input, raising no error when the id is absent. -/
def repoDelete (id : Nat) (store : RepoStore) : RepoStore :=
  List.filter (fun r => decide (r.id ≠ id)) store

theorem repoDelete_filter_twice (id : Nat) (store : RepoStore) :
    repoDelete id (repoDelete id store) = repoDelete id store := by
  unfold repoDelete
  induction store with
  | nil => rfl
  | cons r rest ih =>
    by_cases h : r.id = id
    · simp only [List.filter_cons, h]
      simp
    · simp only [List.filter_cons]
      rw [if_pos (by simpa using h)]
      simp only [List.filter_cons]
      rw [if_pos (by simpa using h)]
      have ih2 := ih
      simp only [List.filter_cons] at ih2 ⊢
      rw [List.cons_inj_right]
      exact ih

/-- C6: deleting an id is defined for every store (no error whether or not a
matching record exists), deleting twice equals deleting once, no record with
the deleted id survives, and deleting an absent id leaves the store
unchanged. -/
theorem repoDelete_idempotent (id : Nat) (store : RepoStore) :
    repoDelete id (repoDelete id store) = repoDelete id store ∧
    (∀ r ∈ repoDelete id store, r.id ≠ id) ∧
    ((∀ r ∈ store, r.id ≠ id) → repoDelete id store = store) := by
  refine ⟨repoDelete_filter_twice id store, ?_, ?_⟩
  · intro r hr
    have := List.of_mem_filter hr
    simpa using this
  · intro habs
    unfold repoDelete
    apply List.filter_eq_self.mpr
    intro r hr
    simpa using habs r hr

/-- Witness for C6: deleting id 5 from an empty store succeeds and returns
the empty store. -/
theorem repoDelete_idempotent_witness : repoDelete 5 ([] : RepoStore) = [] :=
  (repoDelete_idempotent 5 ([] : RepoStore)).2.2 (by intro r hr; cases hr)

/-! ## C2, C3 : QuizValidator -/

/-- Raw question entry as it arrives from the parsed model output: any of the
five required fields may be missing. -/
structure RawQuestion where
  question : Option String
  options : Option (List String)
  answer : Option String
  difficulty : Option String
  explanation : Option String
deriving DecidableEq

/-- Recognized difficulty levels. -/
def validDifficulty (d : String) : Bool :=
  decide (d = "easy") || decide (d = "medium") || decide (d = "hard")

/-- Modelled from the spec: the per-question checks of QuizValidator (the
backend validator source is not among the provided files).  A question is
accepted only when all five required fields are present, `options` holds
exactly 4 unique non-empty strings, `answer` is case-sensitively equal to an
element of `options`, and `difficulty` is one of the three recognized
levels. -/
def validateQuestion (rq : RawQuestion) : Option Question :=
  match rq.question, rq.options, rq.answer, rq.difficulty, rq.explanation with
  | some qt, some opts, some ans, some diff, some expl =>
    if opts.length = 4 ∧ opts.Nodup ∧ (∀ o ∈ opts, o ≠ "") ∧ ans ∈ opts ∧
        validDifficulty diff = true then
      some { question := qt, options := opts, answer := ans,
             difficulty := diff, explanation := expl }
    else
      none
  | _, _, _, _, _ => none

/-- Validation error carrying either the index of the first failing question
or the (out-of-range) question count, as the spec's SchemaValidationError. -/
inductive SchemaErr where
  | badQuestion : Nat → SchemaErr
  | badCount : Nat → SchemaErr
deriving DecidableEq

/-- Modelled from the spec: QuizValidator's walk over the question entries,
failing on the first entry rejected by the per-question checks. -/
def validateAllQuestions : List RawQuestion → Nat → Except SchemaErr (List Question)
  | [], _ => Except.ok []
  | rq :: rest, i =>
    match validateQuestion rq with
    | none => Except.error (SchemaErr.badQuestion i)
    | some q =>
      match validateAllQuestions rest (i + 1) with
      | Except.error e => Except.error e
      | Except.ok qs => Except.ok (q :: qs)

/-- Modelled from the spec: the whole-quiz check of QuizValidator — any
single failing question rejects the entire quiz, and a question count outside
[5, 10] rejects the entire quiz; no partially validated quiz is returned. -/
def validateQuiz (rqs : List RawQuestion) : Except SchemaErr (List Question) :=
  match validateAllQuestions rqs 0 with
  | Except.error e => Except.error e
  | Except.ok qs =>
    if 5 ≤ qs.length ∧ qs.length ≤ 10 then Except.ok qs
    else Except.error (SchemaErr.badCount qs.length)

theorem validateAllQuestions_mem {rqs : List RawQuestion} :
    ∀ {i : Nat} {qs : List Question}, validateAllQuestions rqs i = Except.ok qs →
      ∀ q ∈ qs, ∃ rq ∈ rqs, validateQuestion rq = some q := by
  induction rqs with
  | nil =>
    intro i qs h q hq
    simp only [validateAllQuestions] at h
    cases h
    cases hq
  | cons rq rest ih =>
    intro i qs h q hq
    simp only [validateAllQuestions] at h
    cases hv : validateQuestion rq with
    | none => rw [hv] at h; cases h
    | some q0 =>
      rw [hv] at h
      cases hrest : validateAllQuestions rest (i + 1) with
      | error e => rw [hrest] at h; cases h
      | ok qs0 =>
        rw [hrest] at h
        cases h
        rcases List.mem_cons.mp hq with hq1 | hq2
        · refine ⟨rq, List.mem_cons_self rq rest, ?_⟩
          rw [hq1]
          exact hv
        · rcases ih hrest q hq2 with ⟨rq2, hmem, hval⟩
          exact ⟨rq2, List.mem_cons_of_mem rq hmem, hval⟩

/-- C2: every question accepted by the validator has all five fields present
in the raw entry, exactly 4 unique non-empty options, an answer
case-sensitively equal to exactly one option, and a recognized difficulty. -/
theorem validateQuestion_sound (rq : RawQuestion) (q : Question)
    (h : validateQuestion rq = some q) :
    rq.question = some q.question ∧ rq.options = some q.options ∧
    rq.answer = some q.answer ∧ rq.difficulty = some q.difficulty ∧
    rq.explanation = some q.explanation ∧
    q.options.length = 4 ∧ q.options.Nodup ∧ (∀ o ∈ q.options, o ≠ "") ∧
    q.answer ∈ q.options ∧ q.options.count q.answer = 1 ∧
    (q.difficulty = "easy" ∨ q.difficulty = "medium" ∨ q.difficulty = "hard") := by
  obtain ⟨oq, oo, oa, od, oe⟩ := rq
  cases oq with
  | none => simp [validateQuestion] at h
  | some qt =>
  cases oo with
  | none => simp [validateQuestion] at h
  | some opts =>
  cases oa with
  | none => simp [validateQuestion] at h
  | some ans =>
  cases od with
  | none => simp [validateQuestion] at h
  | some diff =>
  cases oe with
  | none => simp [validateQuestion] at h
  | some expl =>
    simp only [validateQuestion] at h
    by_cases hc : opts.length = 4 ∧ opts.Nodup ∧ (∀ o ∈ opts, o ≠ "") ∧ ans ∈ opts ∧
        validDifficulty diff = true
    · rw [if_pos hc] at h
      cases h
      rcases hc with ⟨h1, h2, h3, h4, h5⟩
      refine ⟨rfl, rfl, rfl, rfl, rfl, h1, h2, h3, h4,
        List.count_eq_one_of_mem h2 h4, ?_⟩
      unfold validDifficulty at h5
      simp only [Bool.or_eq_true, decide_eq_true_eq] at h5
      tauto
    · rw [if_neg hc] at h
      cases h

/-- Raw question with all fields present, 4 unique options, matching answer;
used as a concrete valid entry. -/
def demoRawValid : RawQuestion :=
  { question := some ("Capital of France?")
    options := some ["Paris", "Rome", "Bonn", "Oslo"]
    answer := some ("Paris")
    difficulty := some ("easy")
    explanation := some ("Stated in the lead section.") }

/-- Accepted form of the concrete valid raw entry. -/
def demoAccepted : Question :=
  { question := "Capital of France?"
    options := ["Paris", "Rome", "Bonn", "Oslo"]
    answer := "Paris"
    difficulty := "easy"
    explanation := "Stated in the lead section." }

/-- Witness for C2: the concrete valid raw entry is accepted and its accepted
form satisfies the C2 field properties. -/
theorem validateQuestion_sound_witness :
    validateQuestion demoRawValid = some demoAccepted ∧
      demoAccepted.answer ∈ demoAccepted.options ∧ demoAccepted.options.length = 4 ∧
      (demoAccepted.difficulty = "easy" ∨ demoAccepted.difficulty = "medium" ∨
        demoAccepted.difficulty = "hard") := by
  have h := validateQuestion_sound demoRawValid demoAccepted (by decide)
  exact ⟨by decide, h.2.2.2.2.2.2.2.2.1, h.2.2.2.2.2.1, h.2.2.2.2.2.2.2.2.2.2⟩

theorem validateAllQuestions_error {rqs : List RawQuestion}
    (h : ∃ rq ∈ rqs, validateQuestion rq = none) :
    ∀ i, ∃ e, validateAllQuestions rqs i = Except.error e := by
  induction rqs with
  | nil =>
    rcases h with ⟨rq, hm, _⟩
    cases hm
  | cons rq0 rest ih =>
    intro i
    rcases h with ⟨rq, hm, hn⟩
    rcases List.mem_cons.mp hm with h1 | h2
    · have : validateQuestion rq0 = none := by rw [← h1]; exact hn
      refine ⟨SchemaErr.badQuestion i, ?_⟩
      simp only [validateAllQuestions, this]
    · cases hv : validateQuestion rq0 with
      | none =>
        refine ⟨SchemaErr.badQuestion i, ?_⟩
        simp only [validateAllQuestions, hv]
      | some q0 =>
        rcases ih ⟨rq, h2, hn⟩ (i + 1) with ⟨e, he⟩
        refine ⟨e, ?_⟩
        simp only [validateAllQuestions, hv, he]

theorem validateAllQuestions_length {rqs : List RawQuestion} :
    ∀ {i : Nat} {qs : List Question}, validateAllQuestions rqs i = Except.ok qs →
      qs.length = rqs.length := by
  induction rqs with
  | nil =>
    intro i qs h
    simp only [validateAllQuestions] at h
    cases h
    rfl
  | cons rq rest ih =>
    intro i qs h
    simp only [validateAllQuestions] at h
    cases hv : validateQuestion rq with
    | none => rw [hv] at h; cases h
    | some q0 =>
      rw [hv] at h
      cases hrest : validateAllQuestions rest (i + 1) with
      | error e => rw [hrest] at h; cases h
      | ok qs0 =>
        rw [hrest] at h
        cases h
        simp only [List.length_cons]
        rw [ih hrest]

/-- C3: if any single question entry fails validation, or the question count
is outside [5, 10], the validator rejects the entire quiz with a schema
error — it never returns a partially validated quiz. -/
theorem validateQuiz_rejects_whole (rqs : List RawQuestion)
    (h : (∃ rq ∈ rqs, validateQuestion rq = none) ∨
      ¬(5 ≤ rqs.length ∧ rqs.length ≤ 10)) :
    ∃ e, validateQuiz rqs = Except.error e := by
  rcases h with hbad | hcount
  · rcases validateAllQuestions_error hbad 0 with ⟨e, he⟩
    refine ⟨e, ?_⟩
    simp only [validateQuiz, he]
  · cases hall : validateAllQuestions rqs 0 with
    | error e =>
      refine ⟨e, ?_⟩
      simp only [validateQuiz, hall]
    | ok qs =>
      refine ⟨SchemaErr.badCount qs.length, ?_⟩
      simp only [validateQuiz, hall]
      rw [if_neg]
      rw [validateAllQuestions_length hall]
      exact hcount

/-- Raw question entry whose options list has only 3 entries (wrong option
count); every other field is valid. -/
def demoRawBadOptions : RawQuestion :=
  { question := some ("Capital of Italy?")
    options := some ["Rome", "Milan", "Turin"]
    answer := some ("Rome")
    difficulty := some ("easy")
    explanation := some ("Stated in the lead section.") }

/-- Second valid raw question, distinct from the first. -/
def demoRawValidB : RawQuestion :=
  { question := some ("Largest planet?")
    options := some ["Mars", "Jupiter", "Venus", "Pluto"]
    answer := some ("Jupiter")
    difficulty := some ("medium")
    explanation := some ("Stated in the planets section.") }

/-- A parsed quiz containing four valid questions and one question with the
wrong option count. -/
def demoMixedQuiz : List RawQuestion :=
  [demoRawValid, demoRawValidB, demoRawValid, demoRawValidB, demoRawBadOptions]

/-- Witness for C3: the quiz with 4 valid questions and 1 invalid question
(wrong option count) is rejected in full. -/
theorem validateQuiz_rejects_whole_witness :
    ∃ e, validateQuiz demoMixedQuiz = Except.error e :=
  validateQuiz_rejects_whole demoMixedQuiz (Or.inl (by decide))

/-! ## URL primitives shared by the frontend check and the normalizer -/

/-- Whitespace recognized by the JavaScript `trim` used on submitted URLs. -/
def isJsWhitespace (c : Char) : Bool :=
  decide (c = ' ') || decide (c = '\t') || decide (c = '\n') || decide (c = '\r')

/-- Embedding of `url.trim()`: removes leading and trailing whitespace. -/
def trimChars (l : List Char) : List Char :=
  ((l.dropWhile isJsWhitespace).reverse.dropWhile isJsWhitespace).reverse

/-- Sequence-prefix test on character lists. -/
def isPre : List Char → List Char → Bool
  | [], _ => true
  | _ :: _, [] => false
  | a :: as, b :: bs => if a = b then isPre as bs else false

/-- Sequence-suffix test on character lists. -/
def isSuf (p l : List Char) : Bool := isPre p.reverse l.reverse

/-- Splits a list at the first occurrence of `pat`, returning the part before
and the part after the occurrence. -/
def splitOnSeq (pat : List Char) : List Char → Option (List Char × List Char)
  | [] => if isPre pat [] then some ([], []) else none
  | c :: rest =>
    if isPre pat (c :: rest) then some ([], (c :: rest).drop pat.length)
    else
      match splitOnSeq pat rest with
      | some (before, post) => some (c :: before, post)
      | none => none

/-- Embedding of the JavaScript `String.includes` substring test. -/
def containsSeq (pat l : List Char) : Bool := (splitOnSeq pat l).isSome

theorem isPre_iff : ∀ (p l : List Char), isPre p l = true ↔ ∃ t, p ++ t = l := by
  intro p
  induction p with
  | nil =>
    intro l
    constructor
    · intro _
      exact ⟨l, rfl⟩
    · intro _
      rfl
  | cons a as ih =>
    intro l
    cases l with
    | nil =>
      constructor
      · intro h
        cases h
      · rintro ⟨t, ht⟩
        cases ht
    | cons b bs =>
      constructor
      · intro h
        unfold isPre at h
        by_cases hab : a = b
        · rw [if_pos hab] at h
          rcases (ih bs).mp h with ⟨t, ht⟩
          exact ⟨t, by rw [List.cons_append, ht, hab]⟩
        · rw [if_neg hab] at h
          cases h
      · rintro ⟨t, ht⟩
        rw [List.cons_append] at ht
        injection ht with h1 h2
        unfold isPre
        rw [if_pos h1]
        exact (ih bs).mpr ⟨t, h2⟩

theorem isSuf_iff (p l : List Char) : isSuf p l = true ↔ ∃ s, s ++ p = l := by
  unfold isSuf
  rw [isPre_iff]
  constructor
  · rintro ⟨t, ht⟩
    refine ⟨t.reverse, ?_⟩
    have := congrArg List.reverse ht
    simpa using this
  · rintro ⟨s, hs⟩
    refine ⟨s.reverse, ?_⟩
    have := congrArg List.reverse hs
    simpa using this

theorem isPre_append (p t : List Char) : isPre p (p ++ t) = true :=
  (isPre_iff p (p ++ t)).mpr ⟨t, rfl⟩

theorem containsSeq_of_parts (pat : List Char) :
    ∀ (s t l : List Char), s ++ pat ++ t = l → containsSeq pat l = true := by
  intro s
  induction s with
  | nil =>
    intro t l h
    simp only [List.nil_append] at h
    cases l with
    | nil =>
      have hpat : pat = [] := (List.append_eq_nil.mp h).1
      subst hpat
      rfl
    | cons c rest =>
      have hp : isPre pat (c :: rest) = true := (isPre_iff _ _).mpr ⟨t, h⟩
      unfold containsSeq
      rw [splitOnSeq, if_pos hp]
      rfl
  | cons c s2 ih =>
    intro t l h
    cases l with
    | nil => cases h
    | cons c0 rest =>
      rw [List.cons_append, List.cons_append] at h
      injection h with h1 h2
      have hrec := ih t rest h2
      by_cases hp : isPre pat (c0 :: rest) = true
      · unfold containsSeq
        rw [splitOnSeq, if_pos hp]
        rfl
      · unfold containsSeq
        rw [splitOnSeq, if_neg hp]
        unfold containsSeq at hrec
        cases hs : splitOnSeq pat rest with
        | none => rw [hs] at hrec; cases hrec
        | some pr =>
          obtain ⟨b0, p0⟩ := pr
          rfl

theorem exists_append_dropWhile (p : Char → Bool) (l : List Char) :
    ∃ s, s ++ l.dropWhile p = l := by
  induction l with
  | nil => exact ⟨[], rfl⟩
  | cons c rest ih =>
    by_cases h : p c = true
    · rcases ih with ⟨s, hs⟩
      refine ⟨c :: s, ?_⟩
      rw [List.dropWhile_cons, if_pos h, List.cons_append, hs]
    · refine ⟨[], ?_⟩
      rw [List.dropWhile_cons, if_neg h]
      rfl

theorem trimChars_infix (l : List Char) : ∃ s t, s ++ trimChars l ++ t = l := by
  rcases exists_append_dropWhile isJsWhitespace l with ⟨s, hs⟩
  rcases exists_append_dropWhile isJsWhitespace (l.dropWhile isJsWhitespace).reverse with ⟨u, hu⟩
  have hd : l.dropWhile isJsWhitespace = trimChars l ++ u.reverse := by
    unfold trimChars
    have h2 := congrArg List.reverse hu
    rw [List.reverse_append, List.reverse_reverse] at h2
    exact h2.symm
  refine ⟨s, u.reverse, ?_⟩
  rw [List.append_assoc, ← hd, hs]

/-- ASCII lower-casing used by the normalizer on scheme and host. -/
def lowerChar (c : Char) : Char :=
  if 65 ≤ c.toNat ∧ c.toNat ≤ 90 then Char.ofNat (c.toNat + 32) else c

theorem charOfNat_toNat_lower {n : Nat} (h1 : 97 ≤ n) (h2 : n ≤ 122) :
    (Char.ofNat n).toNat = n := by
  interval_cases n <;> decide

theorem lowerChar_idem (c : Char) : lowerChar (lowerChar c) = lowerChar c := by
  by_cases h : 65 ≤ c.toNat ∧ c.toNat ≤ 90
  · unfold lowerChar
    rw [if_pos h]
    have ht : (Char.ofNat (c.toNat + 32)).toNat = c.toNat + 32 :=
      charOfNat_toNat_lower (by omega) (by omega)
    rw [if_neg]
    rw [ht]
    omega
  · unfold lowerChar
    rw [if_neg h, if_neg h]

theorem lowerChar_ne_slash {c : Char} (h : c ≠ '/') : lowerChar c ≠ '/' := by
  by_cases hc : 65 ≤ c.toNat ∧ c.toNat ≤ 90
  · unfold lowerChar
    rw [if_pos hc]
    intro heq
    have ht : (Char.ofNat (c.toNat + 32)).toNat = c.toNat + 32 :=
      charOfNat_toNat_lower (by omega) (by omega)
    have h47 : ('/' : Char).toNat = 47 := by decide
    have := congrArg Char.toNat heq
    rw [ht, h47] at this
    omega
  · unfold lowerChar
    rw [if_neg hc]
    exact h

theorem mem_takeWhile_sat (p : Char → Bool) :
    ∀ (l : List Char) (c : Char), c ∈ l.takeWhile p → p c = true := by
  intro l
  induction l with
  | nil =>
    intro c hc
    cases hc
  | cons x t ih =>
    intro c hc
    rw [List.takeWhile_cons] at hc
    by_cases hp : p x = true
    · rw [if_pos hp] at hc
      rcases List.mem_cons.mp hc with h1 | h2
      · rw [h1]; exact hp
      · exact ih c h2
    · rw [if_neg hp] at hc
      cases hc

theorem takeWhile_eq_self_of_all (p : Char → Bool) :
    ∀ (l : List Char), (∀ c ∈ l, p c = true) → l.takeWhile p = l := by
  intro l
  induction l with
  | nil => intro _; rfl
  | cons x t ih =>
    intro h
    rw [List.takeWhile_cons, if_pos (h x (List.mem_cons_self x t))]
    rw [ih fun c hc => h c (List.mem_cons_of_mem x hc)]

theorem takeWhile_append_of_all (p : Char → Bool) :
    ∀ (a b : List Char), (∀ c ∈ a, p c = true) → b.takeWhile p = [] →
      (a ++ b).takeWhile p = a ∧ (a ++ b).dropWhile p = b := by
  intro a
  induction a with
  | nil =>
    intro b _ hb
    refine ⟨hb, ?_⟩
    cases b with
    | nil => rfl
    | cons x t =>
      rw [List.takeWhile_cons] at hb
      by_cases hp : p x = true
      · rw [if_pos hp] at hb
        cases hb
      · rw [List.nil_append, List.dropWhile_cons, if_neg hp]
  | cons x a2 ih =>
    intro b ha hb
    have hx : p x = true := ha x (List.mem_cons_self x a2)
    have ha2 : ∀ c ∈ a2, p c = true := fun c hc => ha c (List.mem_cons_of_mem x hc)
    rcases ih b ha2 hb with ⟨h1, h2⟩
    constructor
    · rw [List.cons_append, List.takeWhile_cons, if_pos hx, h1]
    · rw [List.cons_append, List.dropWhile_cons, if_pos hx, h2]

/-! ## C1, C7 : URL validation and normalization -/

/-- Scheme marker for secure URLs, the characters of `https://`. -/
def httpsMark : List Char := ['h', 't', 't', 'p', 's', ':', '/', '/']

/-- Scheme marker for plain URLs, the characters of `http://`. -/
def httpMark : List Char := ['h', 't', 't', 'p', ':', '/', '/']

/-- Domain suffix expected of an encyclopedia article host, the characters of
`wikipedia.org`. -/
def wikiHost : List Char := ['w', 'i', 'k', 'i', 'p', 'e', 'd', 'i', 'a', '.', 'o', 'r', 'g']

/-- Article path segment marker, the characters of `/wiki/`. -/
def wikiPath : List Char := ['/', 'w', 'i', 'k', 'i', '/']

/-- Substring tested by the frontend submit check in GenerateQuiz.jsx, the
characters of `wikipedia.org/wiki/`. -/
def wikiMarker : List Char :=
  ['w', 'i', 'k', 'i', 'p', 'e', 'd', 'i', 'a', '.', 'o', 'r', 'g', '/', 'w', 'i', 'k', 'i', '/']

/-- Characters belonging to the article name proper — everything up to the
first fragment (`#`) or query (`?`) delimiter. -/
def notQueryFrag (c : Char) : Bool := decide (c ≠ '#') && decide (c ≠ '?')

/-- Structured form of a parsed article URL: scheme marker, host, and the
path remainder after the `/wiki/` segment. -/
structure ParsedUrl where
  scheme : List Char
  host : List Char
  name : List Char

/-- Modelled from the spec: scheme recognition of the backend UrlNormalizer
(its source is not among the provided files). -/
def splitScheme (cs : List Char) : Option (List Char × List Char) :=
  if isPre httpsMark cs then some (httpsMark, cs.drop 8)
  else if isPre httpMark cs then some (httpMark, cs.drop 7)
  else none

/-- Modelled from the spec: host and path validation of the backend
UrlNormalizer — the host (everything up to the first `/` after the scheme)
must carry the encyclopedia domain suffix, and the path must start with the
`/wiki/` article segment followed by a non-empty article name. -/
def parseHostPath (sch rest : List Char) : Option ParsedUrl :=
  if isSuf wikiHost (rest.takeWhile fun c => decide (c ≠ '/')) = true ∧
      isPre wikiPath (rest.dropWhile fun c => decide (c ≠ '/')) = true ∧
      ((rest.dropWhile fun c => decide (c ≠ '/')).drop 6).takeWhile notQueryFrag ≠ [] then
    some { scheme := sch
           host := rest.takeWhile fun c => decide (c ≠ '/')
           name := (rest.dropWhile fun c => decide (c ≠ '/')).drop 6 }
  else none

/-- Modelled from the spec: UrlNormalizer validation — the string must be a
well-formed URL whose host carries the encyclopedia domain suffix and whose
path carries the `/wiki/` article segment followed by a non-empty article
name.  The backend source is not among the provided files. -/
def parseArticleUrl (cs : List Char) : Option ParsedUrl :=
  match splitScheme cs with
  | none => none
  | some (sch, rest) => parseHostPath sch rest

/-- Modelled from the spec: UrlNormalizer canonicalization — host
lower-cased, fragment and query stripped; the canonical form is the sole
cache and persistence key.  The backend source is not among the provided
files. -/
def normalizeUrl (cs : List Char) : Option (List Char) :=
  (parseArticleUrl cs).map fun pu =>
    pu.scheme ++ pu.host.map lowerChar ++ wikiPath ++ pu.name.takeWhile notQueryFrag

/-- A string is a valid article URL exactly when the normalizer accepts it. -/
def specValidArticleUrl (cs : List Char) : Bool := (normalizeUrl cs).isSome

/-- Embedding of the submit-time checks of `handleSubmit` in
GenerateQuiz.jsx: an all-whitespace input is rejected, then an input not
containing the substring `wikipedia.org/wiki/` is rejected. -/
def frontendRejects (url : List Char) : Bool :=
  (trimChars url).isEmpty || !(containsSeq wikiMarker url)

/-- Rejection of a submitted string anywhere on the generation path: either
the frontend submit check fails, or the trimmed string sent to the backend
fails UrlNormalizer validation. -/
def requestRejected (url : List Char) : Bool :=
  frontendRejects url || !(specValidArticleUrl (trimChars url))

theorem splitScheme_inv {cs sch rest : List Char} (h : splitScheme cs = some (sch, rest)) :
    cs = sch ++ rest ∧ (sch = httpsMark ∨ sch = httpMark) := by
  unfold splitScheme at h
  by_cases h1 : isPre httpsMark cs = true
  · rw [if_pos h1] at h
    simp only [Option.some.injEq, Prod.mk.injEq] at h
    obtain ⟨e1, e2⟩ := h
    rcases (isPre_iff _ _).mp h1 with ⟨t, ht⟩
    have hdrop : cs.drop 8 = t := by
      rw [← ht]
      exact List.drop_left httpsMark t
    refine ⟨?_, Or.inl e1.symm⟩
    rw [← e1, ← e2, hdrop, ht]
  · rw [if_neg h1] at h
    by_cases h2 : isPre httpMark cs = true
    · rw [if_pos h2] at h
      simp only [Option.some.injEq, Prod.mk.injEq] at h
      obtain ⟨e1, e2⟩ := h
      rcases (isPre_iff _ _).mp h2 with ⟨t, ht⟩
      have hdrop : cs.drop 7 = t := by
        rw [← ht]
        exact List.drop_left httpMark t
      refine ⟨?_, Or.inr e1.symm⟩
      rw [← e1, ← e2, hdrop, ht]
    · rw [if_neg h2] at h
      cases h

theorem parseArticleUrl_inv {cs : List Char} {pu : ParsedUrl}
    (h : parseArticleUrl cs = some pu) :
    (pu.scheme = httpsMark ∨ pu.scheme = httpMark) ∧
    cs = pu.scheme ++ pu.host ++ wikiPath ++ pu.name ∧
    (∀ c ∈ pu.host, decide (c ≠ '/') = true) ∧
    isSuf wikiHost pu.host = true ∧
    pu.name.takeWhile notQueryFrag ≠ [] := by
  unfold parseArticleUrl at h
  cases hs : splitScheme cs with
  | none => rw [hs] at h; cases h
  | some pr =>
    obtain ⟨sch, rest⟩ := pr
    rw [hs] at h
    have h2 : parseHostPath sch rest = some pu := h
    rcases splitScheme_inv hs with ⟨hcs, hsch⟩
    unfold parseHostPath at h2
    by_cases hc : isSuf wikiHost (rest.takeWhile fun c => decide (c ≠ '/')) = true ∧
        isPre wikiPath (rest.dropWhile fun c => decide (c ≠ '/')) = true ∧
        ((rest.dropWhile fun c => decide (c ≠ '/')).drop 6).takeWhile notQueryFrag ≠ []
    · rw [if_pos hc] at h2
      cases h2
      rcases hc with ⟨hsuf, hpre, hname⟩
      refine ⟨hsch, ?_, fun c hc0 => mem_takeWhile_sat _ rest c hc0, hsuf, hname⟩
      show cs = sch ++ (rest.takeWhile fun c => decide (c ≠ '/')) ++ wikiPath ++
        ((rest.dropWhile fun c => decide (c ≠ '/')).drop 6)
      rcases (isPre_iff _ _).mp hpre with ⟨u, hu⟩
      have hd6 : (rest.dropWhile fun c => decide (c ≠ '/')).drop 6 = u := by
        rw [← hu]
        exact List.drop_left wikiPath u
      have hsplit : (rest.takeWhile fun c => decide (c ≠ '/')) ++
          (rest.dropWhile fun c => decide (c ≠ '/')) = rest :=
        List.takeWhile_append_dropWhile _ rest
      calc cs = sch ++ rest := hcs
        _ = sch ++ ((rest.takeWhile fun c => decide (c ≠ '/')) ++
            (rest.dropWhile fun c => decide (c ≠ '/'))) := by rw [hsplit]
        _ = sch ++ ((rest.takeWhile fun c => decide (c ≠ '/')) ++ (wikiPath ++ u)) := by
            rw [hu]
        _ = sch ++ (rest.takeWhile fun c => decide (c ≠ '/')) ++ wikiPath ++ u := by
            simp only [List.append_assoc]
        _ = sch ++ (rest.takeWhile fun c => decide (c ≠ '/')) ++ wikiPath ++
            ((rest.dropWhile fun c => decide (c ≠ '/')).drop 6) := by rw [hd6]
    · rw [if_neg hc] at h2
      cases h2

theorem specValid_contains {cs : List Char} (h : specValidArticleUrl cs = true) :
    ∃ s t, s ++ wikiMarker ++ t = cs := by
  unfold specValidArticleUrl normalizeUrl at h
  cases hp : parseArticleUrl cs with
  | none => rw [hp] at h; cases h
  | some pu =>
    rcases parseArticleUrl_inv hp with ⟨_, hcs, _, hsuf, _⟩
    rcases (isSuf_iff _ _).mp hsuf with ⟨s0, hs0⟩
    refine ⟨pu.scheme ++ s0, pu.name, ?_⟩
    have hmk : wikiHost ++ wikiPath = wikiMarker := by decide
    rw [hcs, ← hs0, ← hmk]
    simp only [List.append_assoc]

theorem specValid_trim_contains {url : List Char}
    (h : specValidArticleUrl (trimChars url) = true) :
    containsSeq wikiMarker url = true := by
  rcases specValid_contains h with ⟨s, t, hst⟩
  rcases trimChars_infix url with ⟨a, b, hab⟩
  apply containsSeq_of_parts wikiMarker (a ++ s) (t ++ b)
  rw [← hab, ← hst]
  simp only [List.append_assoc]

theorem trim_not_empty_of_specValid {url : List Char}
    (h : specValidArticleUrl (trimChars url) = true) :
    (trimChars url).isEmpty = false := by
  cases he : trimChars url with
  | nil =>
    rw [he] at h
    exact absurd h (by decide)
  | cons c r => rfl

/-- C1: a submitted string is rejected with an invalid-URL error — by the
frontend submit check or by the backend validator — exactly when the trimmed
string actually sent to the backend is not a well-formed encyclopedia article
URL (domain suffix plus `/wiki/` article segment); in particular a string
that is not a URL at all is always rejected. -/
theorem url_rejection_iff (url : List Char) :
    requestRejected url = !(specValidArticleUrl (trimChars url)) := by
  unfold requestRejected frontendRejects
  cases hv : specValidArticleUrl (trimChars url) with
  | false => simp
  | true =>
    rw [trim_not_empty_of_specValid hv, specValid_trim_contains hv]
    simp

theorem splitScheme_canonical {sch R : List Char} (hsch : sch = httpsMark ∨ sch = httpMark) :
    splitScheme (sch ++ R) = some (sch, R) := by
  rcases hsch with h1 | h1 <;> subst h1
  · unfold splitScheme
    rw [if_pos (isPre_append _ _)]
    have hd : (httpsMark ++ R).drop 8 = R := List.drop_left httpsMark R
    rw [hd]
  · unfold splitScheme
    have hfalse : isPre httpsMark (httpMark ++ R) = false := rfl
    rw [if_neg (by simp [hfalse])]
    rw [if_pos (isPre_append _ _)]
    have hd : (httpMark ++ R).drop 7 = R := List.drop_left httpMark R
    rw [hd]

theorem normalizeUrl_canonical {sch host name : List Char}
    (hsch : sch = httpsMark ∨ sch = httpMark)
    (hmem : ∀ c ∈ host, decide (c ≠ '/') = true)
    (hsuf : isSuf wikiHost host = true)
    (hname : name.takeWhile notQueryFrag ≠ []) :
    normalizeUrl (sch ++ host.map lowerChar ++ wikiPath ++ name.takeWhile notQueryFrag) =
      some (sch ++ host.map lowerChar ++ wikiPath ++ name.takeWhile notQueryFrag) := by
  have hout : sch ++ host.map lowerChar ++ wikiPath ++ name.takeWhile notQueryFrag =
      sch ++ (host.map lowerChar ++ (wikiPath ++ name.takeWhile notQueryFrag)) := by
    simp only [List.append_assoc]
  have hallL : ∀ c ∈ host.map lowerChar, (fun c => decide (c ≠ '/')) c = true := by
    intro c hc
    rcases List.mem_map.mp hc with ⟨c0, hc0, rfl⟩
    have h0 := hmem c0 hc0
    simp only [decide_eq_true_eq] at h0 ⊢
    exact lowerChar_ne_slash h0
  have hbEmpty : (wikiPath ++ name.takeWhile notQueryFrag).takeWhile
      (fun c => decide (c ≠ '/')) = [] := rfl
  rcases takeWhile_append_of_all (fun c => decide (c ≠ '/')) (host.map lowerChar)
    (wikiPath ++ name.takeWhile notQueryFrag) hallL hbEmpty with ⟨htake, hdrop⟩
  have hsuf2 : isSuf wikiHost (host.map lowerChar) = true := by
    rcases (isSuf_iff _ _).mp hsuf with ⟨s0, hs0⟩
    apply (isSuf_iff _ _).mpr
    refine ⟨s0.map lowerChar, ?_⟩
    have hw : wikiHost.map lowerChar = wikiHost := by decide
    rw [← hs0, List.map_append, hw]
  have hd6 : (wikiPath ++ name.takeWhile notQueryFrag).drop 6 =
      name.takeWhile notQueryFrag := List.drop_left wikiPath _
  have hstr : (name.takeWhile notQueryFrag).takeWhile notQueryFrag =
      name.takeWhile notQueryFrag :=
    takeWhile_eq_self_of_all notQueryFrag _
      (fun c hc => mem_takeWhile_sat notQueryFrag name c hc)
  have hparse : parseArticleUrl (sch ++ (host.map lowerChar ++
      (wikiPath ++ name.takeWhile notQueryFrag))) =
      some { scheme := sch, host := host.map lowerChar,
             name := name.takeWhile notQueryFrag } := by
    unfold parseArticleUrl
    rw [splitScheme_canonical hsch]
    show parseHostPath sch (host.map lowerChar ++ (wikiPath ++ name.takeWhile notQueryFrag)) =
      some { scheme := sch, host := host.map lowerChar, name := name.takeWhile notQueryFrag }
    unfold parseHostPath
    rw [htake, hdrop, hd6, hstr]
    rw [if_pos ⟨hsuf2, isPre_append _ _, hname⟩]
  have hmapidem : (host.map lowerChar).map lowerChar = host.map lowerChar := by
    rw [List.map_map]
    apply List.map_congr_left
    intro c _
    simp only [Function.comp_apply]
    exact lowerChar_idem c
  rw [hout]
  unfold normalizeUrl
  rw [hparse]
  simp only [Option.map_some', Option.some.injEq]
  show sch ++ (host.map lowerChar).map lowerChar ++ wikiPath ++
      (name.takeWhile notQueryFrag).takeWhile notQueryFrag =
    sch ++ (host.map lowerChar ++ (wikiPath ++ name.takeWhile notQueryFrag))
  rw [hmapidem, hstr]
  simp only [List.append_assoc]

/-- C7: the normalizer is idempotent — normalizing an already-normalized
article URL returns that same canonical string, so the canonical form is a
fixed point and serves as a stable cache and persistence key. -/
theorem normalizeUrl_idempotent {cs out : List Char} (h : normalizeUrl cs = some out) :
    normalizeUrl out = some out := by
  unfold normalizeUrl at h
  cases hp : parseArticleUrl cs with
  | none => rw [hp] at h; cases h
  | some pu =>
    rw [hp] at h
    simp only [Option.map_some', Option.some.injEq] at h
    rcases parseArticleUrl_inv hp with ⟨hsch, _, hmem, hsuf, hname⟩
    rw [← h]
    exact normalizeUrl_canonical hsch hmem hsuf hname

/-- Witness for C7: the already-normalized form of the spec's example URL is
a fixed point of the normalizer (the example with fragment and tracking
query normalizes to it, and normalizing again returns it unchanged). -/
theorem normalizeUrl_idempotent_witness :
    normalizeUrl (("https://en.wikipedia.org/wiki/Alan_Turing").toList) =
      some (("https://en.wikipedia.org/wiki/Alan_Turing").toList) :=
  @normalizeUrl_idempotent (("https://en.wikipedia.org/wiki/Alan_Turing#Early_life?ref=x").toList)
    (("https://en.wikipedia.org/wiki/Alan_Turing").toList) (by decide)

/-! ## C5 : GenerateQuizWorkflow and the non-fatal related-topics step -/

/-- Structured article produced by the extractor, as the workflow consumes
it. -/
structure Article where
  title : String
  summary : String
  sections : List String
deriving DecidableEq

/-- ASCII lower-casing of a string, used for the case-insensitive title
comparison of related topics. -/
def lowerStr (s : String) : String := s.map lowerChar

/-- Modelled from the spec: RelatedTopicsGenerator validation (§4.7) — a
flat list of 5–7 unique strings none equal to the article title under
case-insensitive comparison.  The backend source is not among the provided
files. -/
def validateTopics (title : String) (ts : List String) : Bool :=
  decide (5 ≤ ts.length) && decide (ts.length ≤ 7) && decide ts.Nodup &&
    decide (∀ t ∈ ts, lowerStr t ≠ lowerStr title)

/-- One related-topics model call: `none` models an unparsable or failed
response; a parsed list still fails unless it passes validation. -/
def tryTopics (title : String) (attempt : Option (List String)) : Option (List String) :=
  match attempt with
  | none => none
  | some ts => if validateTopics title ts then some ts else none

/-- Modelled from the spec: related-topics generation with its single retry;
failure of both attempts is non-fatal and yields the empty list. -/
def relatedTopicsResult (title : String) (a1 a2 : Option (List String)) : List String :=
  match tryTopics title a1 with
  | some ts => ts
  | none =>
    match tryTopics title a2 with
    | some ts => ts
    | none => []

/-- One quiz-generation model call: `none` models an unparsable response; a
parsed question list still fails unless the whole quiz validates. -/
def tryQuizAttempt (attempt : Option (List RawQuestion)) : Option (List Question) :=
  match attempt with
  | none => none
  | some rqs =>
    match validateQuiz rqs with
    | Except.ok qs => some qs
    | Except.error _ => none

/-- Terminal failure kinds of the workflow. -/
inductive WfError where
  | invalidUrl : WfError
  | extractionFailed : WfError
  | generationFailed : WfError
deriving DecidableEq

/-- Modelled from the spec: quiz generation with its single retry; a second
content failure propagates as a generation error. -/
def quizGenWithRetry (a1 a2 : Option (List RawQuestion)) : Except WfError (List Question) :=
  match tryQuizAttempt a1 with
  | some qs => Except.ok qs
  | none =>
    match tryQuizAttempt a2 with
    | some qs => Except.ok qs
    | none => Except.error WfError.generationFailed

/-- Outcomes of the external steps of one workflow run: the extraction
result and the model responses of the two quiz attempts and the two
related-topics attempts. -/
structure WorkflowEnv where
  extractResult : Option Article
  quizAttempt1 : Option (List RawQuestion)
  quizAttempt2 : Option (List RawQuestion)
  topicsAttempt1 : Option (List String)
  topicsAttempt2 : Option (List String)
  nextId : Nat

/-- Modelled from the spec: GenerateQuizWorkflow (§4.9) — validate the URL,
extract, generate and validate the quiz (with retry), generate related
topics (non-fatal on failure), then persist; every fatal failure leaves the
store untouched. -/
def runWorkflow (env : WorkflowEnv) (store : RepoStore) (url : List Char) :
    Except WfError QuizRecord × RepoStore :=
  match normalizeUrl url with
  | none => (Except.error WfError.invalidUrl, store)
  | some canon =>
    match env.extractResult with
    | none => (Except.error WfError.extractionFailed, store)
    | some article =>
      match quizGenWithRetry env.quizAttempt1 env.quizAttempt2 with
      | Except.error e => (Except.error e, store)
      | Except.ok qs =>
        (Except.ok { id := env.nextId, url := canon, title := article.title,
                     questions := qs,
                     relatedTopics := relatedTopicsResult article.title
                       env.topicsAttempt1 env.topicsAttempt2 },
         store ++ [{ id := env.nextId, url := canon, title := article.title,
                     questions := qs,
                     relatedTopics := relatedTopicsResult article.title
                       env.topicsAttempt1 env.topicsAttempt2 }])

/-- C5: when related-topics generation fails on the original call and on its
single retry while every other step succeeds, the workflow still completes
successfully — the quiz is persisted with an empty related-topics list and
the request returns success rather than an error. -/
theorem workflow_related_nonfatal (env : WorkflowEnv) (store : RepoStore)
    (url canon : List Char) (article : Article) (qs : List Question)
    (hnorm : normalizeUrl url = some canon)
    (hext : env.extractResult = some article)
    (hgen : quizGenWithRetry env.quizAttempt1 env.quizAttempt2 = Except.ok qs)
    (ht1 : tryTopics article.title env.topicsAttempt1 = none)
    (ht2 : tryTopics article.title env.topicsAttempt2 = none) :
    ∃ saved : QuizRecord,
      runWorkflow env store url = (Except.ok saved, store ++ [saved]) ∧
      saved.relatedTopics = [] ∧ saved.questions = qs := by
  have hrel : relatedTopicsResult article.title env.topicsAttempt1 env.topicsAttempt2 = [] := by
    unfold relatedTopicsResult
    rw [ht1, ht2]
  unfold runWorkflow
  rw [hnorm, hext, hgen]
  refine ⟨_, rfl, ?_, rfl⟩
  show relatedTopicsResult article.title env.topicsAttempt1 env.topicsAttempt2 = []
  exact hrel

/-- Concrete extracted article for the workflow witness. -/
def demoArticle : Article :=
  { title := "Alan Turing", summary := "Pioneer of computing.", sections := ["Early life"] }

/-- Concrete parsed quiz with five valid questions. -/
def demoValidQuiz : List RawQuestion :=
  [demoRawValid, demoRawValidB, demoRawValid, demoRawValidB, demoRawValid]

/-- Workflow environment in which extraction and quiz generation succeed but
both related-topics calls fail. -/
def demoEnv : WorkflowEnv :=
  { extractResult := some demoArticle
    quizAttempt1 := some demoValidQuiz
    quizAttempt2 := none
    topicsAttempt1 := none
    topicsAttempt2 := none
    nextId := 1 }

/-- Witness for C5: on the concrete environment the workflow returns success
and persists a quiz whose related-topics list is empty. -/
theorem workflow_related_nonfatal_witness :
    ∃ saved : QuizRecord,
      runWorkflow demoEnv [] (("https://en.wikipedia.org/wiki/Alan_Turing").toList) =
        (Except.ok saved, [] ++ [saved]) ∧
      saved.relatedTopics = [] ∧
      saved.questions =
        [demoAccepted, demoQuestionB, demoAccepted, demoQuestionB, demoAccepted] :=
  workflow_related_nonfatal demoEnv [] (("https://en.wikipedia.org/wiki/Alan_Turing").toList)
    (("https://en.wikipedia.org/wiki/Alan_Turing").toList) demoArticle
    [demoAccepted, demoQuestionB, demoAccepted, demoQuestionB, demoAccepted]
    (by decide) rfl rfl rfl rfl

/-! ## C4 : ResponseParser -/

/-- Generic JSON value as produced by the tolerant parser; numbers keep
their raw lexeme, strings keep their raw (still escaped) body. -/
inductive Json where
  | nullVal : Json
  | boolVal : Bool → Json
  | numVal : List Char → Json
  | strVal : List Char → Json
  | arrVal : List Json → Json
  | objVal : List (List Char × Json) → Json

/-- Whitespace insignificant between JSON tokens. -/
def isJsonWs (c : Char) : Bool :=
  decide (c = ' ') || decide (c = '\t') || decide (c = '\n') || decide (c = '\r')

/-- Skips insignificant whitespace. -/
def skipWs (cs : List Char) : List Char := cs.dropWhile isJsonWs

/-- Reads a JSON string body after the opening quote, keeping escape pairs
raw; returns the body and the remainder after the closing quote. -/
def parseStringBody : List Char → Option (List Char × List Char)
  | [] => none
  | c :: rest =>
    if c = '"' then some ([], rest)
    else if c = '\\' then
      match rest with
      | [] => none
      | e :: rest2 =>
        match parseStringBody rest2 with
        | some (s, r) => some (c :: e :: s, r)
        | none => none
    else
      match parseStringBody rest with
      | some (s, r) => some (c :: s, r)
      | none => none

/-- Characters that may continue a numeric lexeme. -/
def isNumChar (c : Char) : Bool :=
  c.isDigit || decide (c = '.') || decide (c = '-') || decide (c = '+') ||
    decide (c = 'e') || decide (c = 'E')

/-- Fuel-indexed JSON value parser.  Arrays and objects continue after a
comma by re-entering the parser on a re-opened bracket, so the whole parser
is a single structural recursion on the fuel. -/
def parseVal : Nat → List Char → Option (Json × List Char)
  | 0, _ => none
  | fuel + 1, input =>
    match skipWs input with
    | [] => none
    | c :: rest =>
      if c = '"' then
        match parseStringBody rest with
        | some (s, r) => some (Json.strVal s, r)
        | none => none
      else if c = '[' then
        match skipWs rest with
        | ']' :: r2 => some (Json.arrVal [], r2)
        | _ =>
          match parseVal fuel rest with
          | none => none
          | some (v, r2) =>
            match skipWs r2 with
            | ']' :: r3 => some (Json.arrVal [v], r3)
            | ',' :: r3 =>
              match parseVal fuel ('[' :: r3) with
              | some (Json.arrVal vs, r4) => some (Json.arrVal (v :: vs), r4)
              | _ => none
            | _ => none
      else if c = '{' then
        match skipWs rest with
        | '}' :: r2 => some (Json.objVal [], r2)
        | _ =>
          match skipWs rest with
          | '"' :: r2 =>
            match parseStringBody r2 with
            | none => none
            | some (k, r3) =>
              match skipWs r3 with
              | ':' :: r4 =>
                match parseVal fuel r4 with
                | none => none
                | some (v, r5) =>
                  match skipWs r5 with
                  | '}' :: r6 => some (Json.objVal [(k, v)], r6)
                  | ',' :: r6 =>
                    match parseVal fuel ('{' :: r6) with
                    | some (Json.objVal ms, r7) => some (Json.objVal ((k, v) :: ms), r7)
                    | _ => none
                  | _ => none
              | _ => none
          | _ => none
      else if c = 't' then
        if isPre ['r', 'u', 'e'] rest then some (Json.boolVal true, rest.drop 3) else none
      else if c = 'f' then
        if isPre ['a', 'l', 's', 'e'] rest then some (Json.boolVal false, rest.drop 4) else none
      else if c = 'n' then
        if isPre ['u', 'l', 'l'] rest then some (Json.nullVal, rest.drop 3) else none
      else if decide (c = '-') || c.isDigit then
        some (Json.numVal (c :: rest.takeWhile isNumChar), rest.dropWhile isNumChar)
      else none

/-- A string parses as JSON when a value is read and only whitespace
remains. -/
def jsonParseFull (cs : List Char) : Option Json :=
  match parseVal (cs.length + 2) cs with
  | some (v, rest) => if skipWs rest = [] then some v else none
  | none => none

/-- The code-fence character (backtick, U+0060). -/
def fenceChar : Char := Char.ofNat 96

/-- A three-character code fence. -/
def fenceMark : List Char := [fenceChar, fenceChar, fenceChar]

/-- Modelled from the spec: extraction of the content of the first fenced
code block — the text after the opening fence and its optional language tag,
up to the closing fence.  The backend source is not among the provided
files. -/
def extractFenced (text : List Char) : Option (List Char) :=
  match splitOnSeq fenceMark text with
  | none => none
  | some (_, afterOpen) =>
    match splitOnSeq fenceMark (afterOpen.dropWhile fun c => c.isAlpha) with
    | none => none
    | some (inner, _) => some inner

/-- Modelled from the spec: brace-matching scan for the first balanced
braced substring, ignoring braces inside string literals.  The accumulator
collects the substring (reversed) while the depth is positive. -/
def braceScan : List Char → Nat → Bool → Bool → List Char → Option (List Char)
  | [], _, _, _, _ => none
  | c :: rest, depth, inStr, esc, acc =>
    if inStr then
      (if esc then braceScan rest depth true false (if depth = 0 then acc else c :: acc)
       else if c = '\\' then braceScan rest depth true true (if depth = 0 then acc else c :: acc)
       else if c = '"' then braceScan rest depth false false (if depth = 0 then acc else c :: acc)
       else braceScan rest depth true false (if depth = 0 then acc else c :: acc))
    else if c = '"' then braceScan rest depth true false (if depth = 0 then acc else c :: acc)
    else if c = '{' then braceScan rest (depth + 1) false false (c :: acc)
    else if c = '}' then
      (if depth = 0 then braceScan rest 0 false false acc
       else if depth = 1 then some ((c :: acc).reverse)
       else braceScan rest (depth - 1) false false (c :: acc))
    else braceScan rest depth false false (if depth = 0 then acc else c :: acc)

/-- Third strategy: parse the first balanced braced substring. -/
def braceStrategy (text : List Char) : Option Json :=
  match braceScan text 0 false false [] with
  | none => none
  | some sub => jsonParseFull sub

/-- Modelled from the spec: ResponseParser's three strategies tried in order
of preference — (a) the entire trimmed text as JSON, (b) the first fenced
code block, (c) the first balanced braced substring.  The backend source is
not among the provided files. -/
def parseResponse (text : List Char) : Option Json :=
  match jsonParseFull (trimChars text) with
  | some v => some v
  | none =>
    match extractFenced text with
    | some inner =>
      match jsonParseFull inner with
      | some v => some v
      | none => braceStrategy text
    | none => braceStrategy text

/-- C4: when the whole trimmed text is not valid JSON but the input contains
a fenced code block holding valid JSON, the parser's result equals parsing
the fenced content directly — the whole-text strategy is preferred first and
the brace strategy is never consulted. -/
theorem parseResponse_fenced (text inner : List Char) (v : Json)
    (hwhole : jsonParseFull (trimChars text) = none)
    (hfence : extractFenced text = some inner)
    (hinner : jsonParseFull inner = some v) :
    parseResponse text = jsonParseFull inner := by
  unfold parseResponse
  rw [hwhole, hfence]
  simp only [hinner]

/-- Concrete model output: prose, then a fenced `json` block holding an
empty object. -/
def sampleFenced : List Char :=
  ['H', 'e', 'r', 'e', ':', '\n'] ++ fenceMark ++
    ['j', 's', 'o', 'n', '\n', '{', '}', '\n'] ++ fenceMark

/-- Witness for C4: on the concrete fenced sample the parser returns exactly
the parse of the fenced content. -/
theorem parseResponse_fenced_witness :
    parseResponse sampleFenced = jsonParseFull ['\n', '{', '}', '\n'] :=
  parseResponse_fenced sampleFenced ['\n', '{', '}', '\n'] (Json.objVal []) rfl rfl rfl
